import Mathlib

/-!
Verification of the Dimensionality-Reduction Engine specification for the
"Applied Machine Learning for Engineers" notebooks.

The repository's source consists of three notebooks in
"07 - Dimensionality Reduction".  The only original numerical logic present in
the source is the truncated-SVD reconstruction in `compress_rgb_image` (07-2)
and the latent-slider bound computation in `component_sliders` (07-5); the
PCA Engine itself (fit / transform / inverse_transform with its error
taxonomy) is the specification's redesign of ambient notebook state and of a
pickled scikit-learn PCA object, so it is modelled here from the spec.

Real-valued numerics are embedded over a linear ordered field (instantiated
at ℝ in the theorems); "within floating-point tolerance" statements are
proved as exact identities of real arithmetic.  The output of the SVD
library routine (`np.linalg.svd`) is modelled as an oracle: any decomposition
satisfying `IsSVD` (orthonormal factors, non-negative singular values in
descending order) may be returned, matching the spec's remark that signs and
tie order are implementation-defined.
-/

namespace Engine

variable {α : Type*} [LinearOrderedField α]
variable {N F K M r m n : ℕ}

/-- Modelled from the spec: the per-feature arithmetic mean of the sample
matrix, "Mean Vector μ = column-wise average of X" (spec §4.1 `fit`). -/
def meanVector (X : Matrix (Fin N) (Fin F) α) : Fin F → α :=
  fun j => (∑ i, X i j) / (N : α)

/-- Modelled from the spec: the centered matrix X̄ = X − broadcast(μ)
(spec §4.1 `fit`). -/
def centered (X : Matrix (Fin N) (Fin F) α) : Matrix (Fin N) (Fin F) α :=
  Matrix.of fun i j => X i j - meanVector X j

/-- Modelled from the spec: the output of the SVD library routine, a triple
U (N×r), S (r singular values), V (F×r) with X̄ = U·diag(S)·Vᵗ; the spec pins
r = min(N,F) for the thin decomposition used by `fit`. -/
structure SVDData (N F r : ℕ) (α : Type*) where
  U : Matrix (Fin N) (Fin r) α
  S : Fin r → α
  V : Matrix (Fin F) (Fin r) α

/-- Modelled from the spec: what it means for `SVDData` to be a valid thin
singular value decomposition of A — orthonormal columns in U and V,
non-negative singular values in descending order, and A = U·diag(S)·Vᵗ. -/
def IsSVD (A : Matrix (Fin N) (Fin F) α) (d : SVDData N F r α) : Prop :=
  d.U.transpose * d.U = 1 ∧
  d.V.transpose * d.V = 1 ∧
  (∀ i, 0 ≤ d.S i) ∧
  (∀ i j : Fin r, i ≤ j → d.S j ≤ d.S i) ∧
  A = d.U * Matrix.diagonal d.S * d.V.transpose

/-- Modelled from the spec: the fitted state of the Engine — Mean Vector,
Principal Directions (F×K) and Explained Variances (spec §3 data model). -/
structure EngineState (F K : ℕ) (α : Type*) where
  mean : Fin F → α
  R : Matrix (Fin F) (Fin K) α
  variances : Fin K → α

/-- Modelled from the spec: `fit(X, K)` — given the SVD of the centered data,
take μ, the first K columns of V as Principal Directions, and
λ_i = S_i²/N as Explained Variances (spec §4.1 `fit`). -/
def fit (X : Matrix (Fin N) (Fin F) α) (K : ℕ) (hK : K ≤ r)
    (d : SVDData N F r α) : EngineState F K α :=
  { mean := meanVector X
    R := Matrix.of fun j k => d.V j (Fin.castLE hK k)
    variances := fun k => d.S (Fin.castLE hK k) ^ 2 / (N : α) }

/-- Modelled from the spec: `transform` on one sample,
z = (x − μ) · R (spec §4.1, row-vector convention). -/
def transform (st : EngineState F K α) (x : Fin F → α) : Fin K → α :=
  fun k => ∑ j, (x j - st.mean j) * st.R j k

/-- Modelled from the spec: `inverse_transform` on one latent vector,
x̃ = z · Rᵗ + μ (spec §4.1). -/
def inverse_transform (st : EngineState F K α) (z : Fin K → α) : Fin F → α :=
  fun j => (∑ k, z k * st.R j k) + st.mean j

/-- Modelled from the spec: `transform` applied to an M×F matrix row by row. -/
def transformAll (st : EngineState F K α) (Y : Matrix (Fin M) (Fin F) α) :
    Matrix (Fin M) (Fin K) α :=
  Matrix.of fun i => transform st (Y i)

/-- Modelled from the spec: `inverse_transform` applied to an M×K matrix row
by row. -/
def inverseAll (st : EngineState F K α) (Z : Matrix (Fin M) (Fin K) α) :
    Matrix (Fin M) (Fin F) α :=
  Matrix.of fun i => inverse_transform st (Z i)

/-- Row-wise centering by an arbitrary vector (used to relate the row-wise
operations to matrix products). -/
def centerRows (μ : Fin F → α) (Y : Matrix (Fin M) (Fin F) α) :
    Matrix (Fin M) (Fin F) α :=
  Matrix.of fun i j => Y i j - μ j

/-- Squared Frobenius norm, ‖A‖_F² = Σ_{ij} A_{ij}². -/
def frobSq (A : Matrix (Fin M) (Fin F) α) : α :=
  ∑ i, ∑ j, A i j ^ 2

/-- Modelled from the spec: the reconstruction error of X through the fitted
Engine, the Frobenius norm (squared) of X minus its reconstruction
(spec §8, Eckart–Young property). -/
def reconError (X : Matrix (Fin N) (Fin F) α) (st : EngineState F K α) : α :=
  frobSq (Matrix.of fun i j => X i j - inverseAll st (transformAll st X) i j)

theorem transformAll_eq (st : EngineState F K α) (Y : Matrix (Fin M) (Fin F) α) :
    transformAll st Y = centerRows st.mean Y * st.R := by
  ext i k
  simp [transformAll, transform, centerRows, Matrix.mul_apply]

theorem inverseAll_apply (st : EngineState F K α) (Z : Matrix (Fin M) (Fin K) α)
    (i : Fin M) (j : Fin F) :
    inverseAll st Z i j = (Z * st.R.transpose) i j + st.mean j := by
  simp [inverseAll, inverse_transform, Matrix.mul_apply]

theorem roundtrip_apply (st : EngineState F K α) (Y : Matrix (Fin M) (Fin F) α)
    (i : Fin M) (j : Fin F) :
    inverseAll st (transformAll st Y) i j =
      (centerRows st.mean Y * (st.R * st.R.transpose)) i j + st.mean j := by
  rw [inverseAll_apply, transformAll_eq, Matrix.mul_assoc]

theorem svd_self_projection {A : Matrix (Fin N) (Fin F) α} {d : SVDData N F r α}
    (hd : IsSVD A d) : A * (d.V * d.V.transpose) = A := by
  obtain ⟨-, hV, -, -, hA⟩ := hd
  calc A * (d.V * d.V.transpose)
      = d.U * Matrix.diagonal d.S *
        ((d.V.transpose * d.V) * d.V.transpose) := by
        rw [hA]; simp only [Matrix.mul_assoc]
    _ = A := by rw [hV, Matrix.one_mul, hA]

theorem fit_full_R (X : Matrix (Fin N) (Fin F) α) (d : SVDData N F r α) :
    (fit X r le_rfl d).R = d.V := by
  ext j k
  exact congrArg (d.V j) (Fin.ext rfl)

theorem fit_mean (X : Matrix (Fin N) (Fin F) α) (hK : K ≤ r)
    (d : SVDData N F r α) : (fit X K hK d).mean = meanVector X := rfl

theorem centerRows_meanVector (X : Matrix (Fin N) (Fin F) α) :
    centerRows (meanVector X) X = centered X := rfl

/-- C1: with K = min(N, F) (the thin SVD's full set of r = min(N,F) retained
directions), `transform` followed by `inverse_transform` reproduces the
sample matrix X exactly: no information is discarded. -/
theorem roundtrip_exact_full_rank (X : Matrix (Fin N) (Fin F) ℝ)
    (d : SVDData N F r ℝ) (hr : r = min N F) (hd : IsSVD (centered X) d) :
    inverseAll (fit X r le_rfl d) (transformAll (fit X r le_rfl d) X) = X := by
  ext i j
  rw [roundtrip_apply, fit_mean, centerRows_meanVector, fit_full_R,
    svd_self_projection hd]
  simp [centered]

/-- A concrete 4×1 sample matrix whose centered form has a rational thin SVD:
columns sum to zero, singular value 2. -/
def Xone : Matrix (Fin 4) (Fin 1) ℝ :=
  Matrix.of fun i _ => ![(1 : ℝ), 1, -1, -1] i

/-- A concrete valid thin SVD datum for `centered Xone`. -/
noncomputable def done : SVDData 4 1 1 ℝ :=
  { U := Matrix.of fun i _ => ![(1 : ℝ) / 2, 1 / 2, -1 / 2, -1 / 2] i
    S := fun _ => 2
    V := Matrix.of fun _ _ => 1 }

theorem done_isSVD : IsSVD (centered Xone) done := by
  refine ⟨?_, ?_, fun i => by norm_num [done], fun i j _ => le_rfl, ?_⟩
  · ext i j
    fin_cases i; fin_cases j
    simp [done, Matrix.mul_apply, Fin.sum_univ_succ, Matrix.one_apply]
    norm_num
  · ext i j
    fin_cases i; fin_cases j
    simp [done, Matrix.mul_apply, Fin.sum_univ_succ, Matrix.one_apply]
  · ext i j
    fin_cases i <;> fin_cases j <;>
      simp [done, Xone, centered, meanVector, Matrix.mul_apply,
        Matrix.diagonal, Fin.sum_univ_succ] <;> norm_num

/-- Witness for C1: the round trip at K = min(4,1) = 1 on the concrete
matrix `Xone` with the concrete SVD `done`. -/
theorem roundtrip_exact_full_rank_witness :
    inverseAll (fit Xone 1 le_rfl done) (transformAll (fit Xone 1 le_rfl done) Xone) =
      Xone :=
  roundtrip_exact_full_rank Xone done (by norm_num) done_isSVD

/-- C3: the Principal Directions matrix R produced by `fit` has orthonormal
columns: Rᵗ·R is the K×K identity, for any valid X and 1 ≤ K ≤ min(N,F). -/
theorem principal_directions_orthonormal (X : Matrix (Fin N) (Fin F) ℝ)
    (d : SVDData N F r ℝ) (hr : r = min N F) (hK1 : 1 ≤ K) (hK : K ≤ r)
    (hd : IsSVD (centered X) d) :
    (fit X K hK d).R.transpose * (fit X K hK d).R = 1 := by
  obtain ⟨-, hV, -, -, -⟩ := hd
  ext k k'
  calc ((fit X K hK d).R.transpose * (fit X K hK d).R) k k'
      = (d.V.transpose * d.V) (Fin.castLE hK k) (Fin.castLE hK k') := by
        simp [fit, Matrix.mul_apply, Matrix.transpose_apply]
    _ = (1 : Matrix (Fin r) (Fin r) ℝ) (Fin.castLE hK k) (Fin.castLE hK k') := by
        rw [hV]
    _ = (1 : Matrix (Fin K) (Fin K) ℝ) k k' := by
        simp [Matrix.one_apply, Fin.castLE_inj]

/-- Witness for C3: orthonormality of the fitted directions on the concrete
matrix `Xone` with the concrete SVD `done`, K = 1. -/
theorem principal_directions_orthonormal_witness :
    (fit Xone 1 le_rfl done).R.transpose * (fit Xone 1 le_rfl done).R = 1 :=
  principal_directions_orthonormal Xone done (by norm_num) le_rfl le_rfl done_isSVD

/-- C4: the Explained Variances of `fit(X, K)` are exactly λ_k = S_k²/N for
the singular values S of the centered data, are non-negative, and are sorted
in descending order. -/
theorem explained_variances_spec (X : Matrix (Fin N) (Fin F) ℝ)
    (d : SVDData N F r ℝ) (hr : r = min N F) (hK : K ≤ r)
    (hd : IsSVD (centered X) d) :
    (∀ k, (fit X K hK d).variances k = d.S (Fin.castLE hK k) ^ 2 / (N : ℝ)) ∧
    (∀ k, 0 ≤ (fit X K hK d).variances k) ∧
    (∀ k k' : Fin K, k ≤ k' →
      (fit X K hK d).variances k' ≤ (fit X K hK d).variances k) := by
  obtain ⟨-, -, hS0, hSdesc, -⟩ := hd
  refine ⟨fun k => rfl, fun k => ?_, fun k k' hkk => ?_⟩
  · exact div_nonneg (sq_nonneg _) (Nat.cast_nonneg N)
  · show d.S (Fin.castLE hK k') ^ 2 / (N : ℝ) ≤ d.S (Fin.castLE hK k) ^ 2 / (N : ℝ)
    rw [div_eq_mul_inv, div_eq_mul_inv]
    refine mul_le_mul_of_nonneg_right ?_ (inv_nonneg.2 (Nat.cast_nonneg N))
    exact pow_le_pow_left (hS0 _) (hSdesc _ _ hkk) 2

/-- Witness for C4: the explained-variance facts on the concrete matrix
`Xone` with the concrete SVD `done`, K = 1. -/
theorem explained_variances_spec_witness :
    (∀ k, (fit Xone 1 le_rfl done).variances k =
      done.S (Fin.castLE le_rfl k) ^ 2 / ((4 : ℕ) : ℝ)) ∧
    (∀ k, 0 ≤ (fit Xone 1 le_rfl done).variances k) ∧
    (∀ k k' : Fin 1, k ≤ k' →
      (fit Xone 1 le_rfl done).variances k' ≤ (fit Xone 1 le_rfl done).variances k) :=
  explained_variances_spec Xone done (by norm_num) le_rfl done_isSVD

theorem univ_map_castLEEmb (hK : K ≤ r) :
    Finset.univ.map (Fin.castLEEmb hK) =
      Finset.univ.filter (fun i : Fin r => (i : ℕ) < K) := by
  ext i
  simp only [Finset.mem_map, Finset.mem_univ, true_and, Finset.mem_filter]
  constructor
  · rintro ⟨k, rfl⟩
    exact k.isLt
  · intro hi
    exact ⟨⟨(i : ℕ), hi⟩, Fin.ext rfl⟩

theorem sum_castLE (hK : K ≤ r) (f : Fin r → α) :
    ∑ k : Fin K, f (Fin.castLE hK k) =
      ∑ i : Fin r, if (i : ℕ) < K then f i else 0 := by
  rw [← Finset.sum_filter, ← univ_map_castLEEmb hK, Finset.sum_map]
  rfl

theorem fit_R_mul_transpose (X : Matrix (Fin N) (Fin F) α) (hK : K ≤ r)
    (d : SVDData N F r α) :
    (fit X K hK d).R * (fit X K hK d).R.transpose =
      d.V * (Matrix.diagonal (fun i : Fin r => if (i : ℕ) < K then (1 : α) else 0) *
        d.V.transpose) := by
  ext j l
  rw [← Matrix.mul_assoc]
  rw [Matrix.mul_apply, Matrix.mul_apply]
  simp only [fit, Matrix.mul_diagonal, Matrix.transpose_apply, Matrix.of_apply]
  rw [sum_castLE hK (fun i => d.V j i * d.V l i)]
  refine Finset.sum_congr rfl fun i _ => ?_
  split_ifs <;> ring

theorem frobSq_eq_trace (A : Matrix (Fin M) (Fin F) α) :
    frobSq A = Matrix.trace (A.transpose * A) := by
  simp only [frobSq, Matrix.trace, Matrix.diag, Matrix.mul_apply,
    Matrix.transpose_apply, sq]
  exact Finset.sum_comm

theorem frobSq_svd_form {U : Matrix (Fin N) (Fin r) α} {V : Matrix (Fin F) (Fin r) α}
    (hU : U.transpose * U = 1) (hV : V.transpose * V = 1) (g : Fin r → α) :
    frobSq (U * Matrix.diagonal g * V.transpose) = ∑ i, g i ^ 2 := by
  rw [frobSq_eq_trace]
  have ht : (U * Matrix.diagonal g * V.transpose).transpose =
      V * (Matrix.diagonal g * U.transpose) := by
    rw [Matrix.transpose_mul, Matrix.transpose_mul, Matrix.diagonal_transpose,
      Matrix.transpose_transpose]
  rw [ht]
  have hmid : Matrix.diagonal g * U.transpose * (U * Matrix.diagonal g * V.transpose) =
      Matrix.diagonal (fun i => g i * g i) * V.transpose := by
    calc Matrix.diagonal g * U.transpose * (U * Matrix.diagonal g * V.transpose)
        = Matrix.diagonal g * ((U.transpose * U) * Matrix.diagonal g * V.transpose) := by
          simp only [Matrix.mul_assoc]
      _ = Matrix.diagonal (fun i => g i * g i) * V.transpose := by
          rw [hU, Matrix.one_mul, ← Matrix.mul_assoc, Matrix.diagonal_mul_diagonal]
  rw [Matrix.mul_assoc, hmid, ← Matrix.mul_assoc, Matrix.trace_mul_comm,
    ← Matrix.mul_assoc, hV, Matrix.one_mul, Matrix.trace_diagonal]
  exact Finset.sum_congr rfl fun i _ => (sq (g i)).symm

theorem residual_eq (X : Matrix (Fin N) (Fin F) α) (hK : K ≤ r)
    (d : SVDData N F r α) (hd : IsSVD (centered X) d) :
    (Matrix.of fun i j => X i j -
        inverseAll (fit X K hK d) (transformAll (fit X K hK d) X) i j) =
      d.U * Matrix.diagonal (fun i : Fin r => if (i : ℕ) < K then 0 else d.S i) *
        d.V.transpose := by
  obtain ⟨-, hV, -, -, hA⟩ := hd
  have hstep : (Matrix.of fun i j => X i j -
      inverseAll (fit X K hK d) (transformAll (fit X K hK d) X) i j) =
      centered X - centered X * ((fit X K hK d).R * (fit X K hK d).R.transpose) := by
    ext i j
    rw [Matrix.of_apply, roundtrip_apply, fit_mean, centerRows_meanVector]
    simp [centered]
    ring
  have hDP : Matrix.diagonal d.S -
      Matrix.diagonal d.S *
        Matrix.diagonal (fun i : Fin r => if (i : ℕ) < K then (1 : α) else 0) =
      Matrix.diagonal (fun i : Fin r => if (i : ℕ) < K then 0 else d.S i) := by
    rw [Matrix.diagonal_mul_diagonal]
    ext i j
    rcases eq_or_ne i j with rfl | hij
    · simp only [Matrix.sub_apply, Matrix.diagonal_apply_eq]
      split_ifs <;> ring
    · simp only [Matrix.sub_apply, Matrix.diagonal_apply_ne _ hij, sub_zero]
  set P := Matrix.diagonal (fun i : Fin r => if (i : ℕ) < K then (1 : α) else 0)
  rw [hstep, fit_R_mul_transpose]
  calc centered X - centered X * (d.V * (P * d.V.transpose))
      = d.U * Matrix.diagonal d.S * d.V.transpose -
        d.U * Matrix.diagonal d.S * d.V.transpose * (d.V * (P * d.V.transpose)) := by
        rw [← hA]
    _ = d.U * Matrix.diagonal d.S * d.V.transpose -
        d.U * (Matrix.diagonal d.S * (d.V.transpose * (d.V * (P * d.V.transpose)))) := by
        simp only [Matrix.mul_assoc]
    _ = d.U * Matrix.diagonal d.S * d.V.transpose -
        d.U * (Matrix.diagonal d.S * ((d.V.transpose * d.V) * (P * d.V.transpose))) := by
        rw [Matrix.mul_assoc d.V.transpose]
    _ = d.U * (Matrix.diagonal d.S * d.V.transpose) -
        d.U * (Matrix.diagonal d.S * (P * d.V.transpose)) := by
        rw [hV, Matrix.one_mul, Matrix.mul_assoc]
    _ = d.U * (Matrix.diagonal d.S * d.V.transpose -
        Matrix.diagonal d.S * (P * d.V.transpose)) := by
        rw [Matrix.mul_sub]
    _ = d.U * ((Matrix.diagonal d.S - Matrix.diagonal d.S * P) * d.V.transpose) := by
        congr 1
        rw [Matrix.sub_mul, Matrix.mul_assoc]
    _ = d.U * (Matrix.diagonal (fun i : Fin r => if (i : ℕ) < K then 0 else d.S i) *
        d.V.transpose) := by
        rw [hDP]
    _ = d.U * Matrix.diagonal (fun i : Fin r => if (i : ℕ) < K then 0 else d.S i) *
        d.V.transpose := (Matrix.mul_assoc _ _ _).symm

theorem reconError_eq (X : Matrix (Fin N) (Fin F) ℝ) (hK : K ≤ r)
    (d : SVDData N F r ℝ) (hd : IsSVD (centered X) d) :
    reconError X (fit X K hK d) =
      ∑ i : Fin r, if (i : ℕ) < K then 0 else d.S i ^ 2 := by
  rw [reconError, residual_eq X hK d hd, frobSq_svd_form hd.1 hd.2.1]
  refine Finset.sum_congr rfl fun i _ => ?_
  split_ifs <;> simp

/-- C2: with K1 < K2 ≤ min(N,F) retained directions, the (squared Frobenius)
reconstruction error of X through fit/transform/inverse_transform with K1
directions is at least the error with K2 directions: more directions never
hurt (the monotone consequence of Eckart–Young for truncated SVD). -/
theorem reconstruction_error_antitone (X : Matrix (Fin N) (Fin F) ℝ)
    (d : SVDData N F r ℝ) (hr : r = min N F) {K1 K2 : ℕ} (h12 : K1 < K2)
    (h2 : K2 ≤ r) (hd : IsSVD (centered X) d) :
    reconError X (fit X K2 h2 d) ≤
      reconError X (fit X K1 ((le_of_lt h12).trans h2) d) := by
  rw [reconError_eq X h2 d hd, reconError_eq X ((le_of_lt h12).trans h2) d hd]
  refine Finset.sum_le_sum fun i _ => ?_
  by_cases hi1 : (i : ℕ) < K1
  · rw [if_pos hi1, if_pos (hi1.trans h12)]
  · rw [if_neg hi1]
    split_ifs
    · exact sq_nonneg _
    · exact le_rfl

/-- A concrete 4×2 sample matrix with zero column means and mutually
orthogonal columns of norms 6 and 2, so its thin SVD is rational. -/
noncomputable def Xtwo : Matrix (Fin 4) (Fin 2) ℝ :=
  Matrix.of fun i j => ![![(5 : ℝ), 1 / 3], ![-1, 1 / 3], ![-3, 1], ![-1, -5 / 3]] i j

/-- A concrete valid thin SVD datum for `centered Xtwo`, with singular values
6 > 2. -/
noncomputable def dtwo : SVDData 4 2 2 ℝ :=
  { U := Matrix.of fun i j =>
      ![![(5 : ℝ) / 6, 1 / 6], ![-1 / 6, 1 / 6], ![-1 / 2, 1 / 2], ![-1 / 6, -5 / 6]] i j
    S := ![6, 2]
    V := 1 }

theorem dtwo_isSVD : IsSVD (centered Xtwo) dtwo := by
  refine ⟨?_, ?_, ?_, ?_, ?_⟩
  · ext i j
    fin_cases i <;> fin_cases j <;>
      simp [dtwo, Matrix.mul_apply, Fin.sum_univ_succ, Matrix.one_apply] <;> norm_num
  · simp [dtwo]
  · intro i
    fin_cases i <;> norm_num [dtwo]
  · intro i j hij
    fin_cases i <;> fin_cases j
    · norm_num [dtwo]
    · norm_num [dtwo]
    · exact absurd hij (by decide)
    · norm_num [dtwo]
  · ext i j
    fin_cases i <;> fin_cases j <;>
      simp [dtwo, Xtwo, centered, meanVector, Matrix.mul_apply, Matrix.diagonal,
        Fin.sum_univ_succ, Matrix.one_apply] <;> norm_num

/-- Witness for C2: the reconstruction error with K2 = 2 directions is at
most the error with K1 = 1 direction on the concrete matrix `Xtwo`. -/
theorem reconstruction_error_antitone_witness :
    reconError Xtwo (fit Xtwo 2 le_rfl dtwo) ≤
      reconError Xtwo (fit Xtwo 1 ((le_of_lt one_lt_two).trans le_rfl) dtwo) :=
  reconstruction_error_antitone Xtwo dtwo (by norm_num) one_lt_two le_rfl dtwo_isSVD

/-- Modelled from the spec: the Engine's error taxonomy (spec §7) —
`DimensionError` for shape mismatches, `RangeError` for out-of-bounds latent
coordinates, `NumericError` for SVD convergence failure. -/
inductive PCAError where
  | DimensionError : PCAError
  | RangeError : PCAError
  | NumericError : PCAError
deriving DecidableEq

/-- Modelled from the spec: the shape validation performed by `fit(X, K)` —
fails with `DimensionError` iff K > min(N, F) or X has zero rows
(spec §4.1 `fit`, §7). -/
def fitCheck (N F K : ℕ) : Except PCAError Unit :=
  if min N F < K ∨ N = 0 then Except.error PCAError.DimensionError
  else Except.ok ()

/-- Modelled from the spec: `transform` on an arbitrary-length input vector —
fails with `DimensionError` iff the input's feature dimension differs from
the F recorded at fit time (spec §4.1 `transform`). -/
def transformChecked (st : EngineState F K α) (x : List α) :
    Except PCAError (Fin K → α) :=
  if h : x.length = F then
    Except.ok (transform st fun j => x.get (Fin.cast h.symm j))
  else Except.error PCAError.DimensionError

/-- Modelled from the spec: `inverse_transform` on an arbitrary-length input —
fails with `DimensionError` iff the input's last dimension differs from K
(spec §4.1 `inverse_transform`). -/
def inverseChecked (st : EngineState F K α) (z : List α) :
    Except PCAError (Fin F → α) :=
  if h : z.length = K then
    Except.ok (inverse_transform st fun k => z.get (Fin.cast h.symm k))
  else Except.error PCAError.DimensionError

/-- C5: `fit` raises `DimensionError` exactly when K > min(N, F) or X has
zero rows; `transform` raises `DimensionError` exactly when its input's
feature dimension differs from the recorded F; and in the non-error case
`transform` returns normally — the error is never silently corrected. -/
theorem dimension_error_characterization (N : ℕ) (st : EngineState F K ℝ)
    (x : List ℝ) :
    (fitCheck N F K = Except.error PCAError.DimensionError ↔
      min N F < K ∨ N = 0) ∧
    (transformChecked st x = Except.error PCAError.DimensionError ↔
      x.length ≠ F) ∧
    (∀ h : x.length = F,
      transformChecked st x =
        Except.ok (transform st fun j => x.get (Fin.cast h.symm j))) := by
  refine ⟨?_, ?_, fun h => dif_pos h⟩
  · unfold fitCheck
    split_ifs with h
    · simpa using h
    · simpa using h
  · unfold transformChecked
    split_ifs with h
    · simp [h]
    · simp [h]

/-- A concrete fitted state with F = K = 1 used to instantiate the
error-handling theorems. -/
noncomputable def stOne : EngineState 1 1 ℝ :=
  { mean := fun _ => 0
    R := Matrix.of fun _ _ => 1
    variances := fun _ => 1 }

/-- Witness for C5: the characterization evaluated at N = 0 rows, F = 1,
K = 1, a concrete fitted state and the length-1 input [0]. -/
theorem dimension_error_characterization_witness :
    (fitCheck 0 1 1 = Except.error PCAError.DimensionError ↔
      min 0 1 < 1 ∨ 0 = 0) ∧
    (transformChecked stOne [(0 : ℝ)] = Except.error PCAError.DimensionError ↔
      [(0 : ℝ)].length ≠ 1) ∧
    (∀ h : [(0 : ℝ)].length = 1,
      transformChecked stOne [(0 : ℝ)] =
        Except.ok (transform stOne fun j => [(0 : ℝ)].get (Fin.cast h.symm j))) :=
  dimension_error_characterization 0 stOne [(0 : ℝ)]

/-- Modelled from the spec: `sample_and_decode(z)` — a direct composition of
a per-coordinate bounds check against the recorded [min, max] latent bounds
and `inverse_transform`; fails with `RangeError` on any out-of-bounds
coordinate and never clamps (spec §4.1 generative sampling extension, §7). -/
def sample_and_decode (st : EngineState F K α) (lo hi : Fin K → α)
    (z : Fin K → α) : Except PCAError (Fin F → α) :=
  if ∀ k, lo k ≤ z k ∧ z k ≤ hi k then Except.ok (inverse_transform st z)
  else Except.error PCAError.RangeError

/-- C6: `sample_and_decode` raises `RangeError` exactly when some coordinate
z_k lies outside its recorded [lo_k, hi_k] bound, and on in-bounds input it
returns `inverse_transform z` unchanged — it never clamps or decodes an
out-of-bounds vector. -/
theorem sample_and_decode_range_check (st : EngineState F K ℝ)
    (lo hi z : Fin K → ℝ) :
    (sample_and_decode st lo hi z = Except.error PCAError.RangeError ↔
      ∃ k, z k < lo k ∨ hi k < z k) ∧
    ((∀ k, lo k ≤ z k ∧ z k ≤ hi k) →
      sample_and_decode st lo hi z = Except.ok (inverse_transform st z)) := by
  constructor
  · unfold sample_and_decode
    split_ifs with h
    · refine iff_of_false (by simp) ?_
      rintro ⟨k, hk | hk⟩
      · exact absurd (h k).1 hk.not_le
      · exact absurd (h k).2 hk.not_le
    · refine iff_of_true rfl ?_
      push_neg at h
      obtain ⟨k, hk⟩ := h
      by_cases hlo : lo k ≤ z k
      · exact ⟨k, Or.inr (hk hlo)⟩
      · exact ⟨k, Or.inl (not_le.1 hlo)⟩
  · intro h
    unfold sample_and_decode
    rw [if_pos h]

/-- Witness for C6: the range-check characterization evaluated on the
concrete fitted state `stOne` with bounds [0, 1] and the in-bounds latent
vector 0. -/
theorem sample_and_decode_range_check_witness :
    (sample_and_decode stOne (fun _ => 0) (fun _ => 1) (fun _ => 0) =
        Except.error PCAError.RangeError ↔
      ∃ _ : Fin 1, (0 : ℝ) < 0 ∨ (1 : ℝ) < 0) ∧
    ((∀ _ : Fin 1, (0 : ℝ) ≤ 0 ∧ (0 : ℝ) ≤ 1) →
      sample_and_decode stOne (fun _ => 0) (fun _ => 1) (fun _ => 0) =
        Except.ok (inverse_transform stOne fun _ => 0)) :=
  sample_and_decode_range_check stOne (fun _ => 0) (fun _ => 1) (fun _ => 0)

/-- Modelled from the spec: the calls available on a fitted Engine instance
after `fit` completes (spec §4.1 state machine: `fit` is the only transition;
`transform`/`inverse_transform` are valid in the fitted state). -/
inductive EngineOp (α : Type*) where
  | transformOp (x : List α) : EngineOp α
  | inverseOp (z : List α) : EngineOp α

/-- Modelled from the spec: executing one call on a fitted Engine returns the
post-call state together with the call's result or error. -/
def engineStep (st : EngineState F K α) :
    EngineOp α → EngineState F K α × Except PCAError (List α)
  | EngineOp.transformOp x =>
      (st, Except.map (fun v => List.ofFn v) (transformChecked st x))
  | EngineOp.inverseOp z =>
      (st, Except.map (fun v => List.ofFn v) (inverseChecked st z))

/-- C8: once `fit` completes, the fitted fields (Mean Vector, Principal
Directions, Explained Variances) are unchanged by every subsequent
`transform` or `inverse_transform` call, whether the call returns normally
or raises `DimensionError`. -/
theorem fitted_state_immutable (st : EngineState F K ℝ) (op : EngineOp ℝ) :
    (engineStep st op).1.mean = st.mean ∧
    (engineStep st op).1.R = st.R ∧
    (engineStep st op).1.variances = st.variances := by
  cases op <;> exact ⟨rfl, rfl, rfl⟩

/-- Embedding of the truncated reconstruction in `compress_rgb_image`
(07-2 Singular Value Decomposition):
`U[:, :cutoff] @ np.diag(S[:cutoff]) @ V[:cutoff, :]`.
NumPy's `:cutoff` slice keeps exactly the indices k with k < cutoff (and
clamps silently when cutoff exceeds the number of singular values), so the
product is the sum of the first `cutoff` rank-one terms. -/
def truncatedReconstruction (U : Matrix (Fin m) (Fin r) ℝ) (S : Fin r → ℝ)
    (V : Matrix (Fin r) (Fin n) ℝ) (cutoff : ℕ) : Matrix (Fin m) (Fin n) ℝ :=
  Matrix.of fun i j =>
    ∑ k ∈ Finset.univ.filter (fun k : Fin r => (k : ℕ) < cutoff),
      U i k * S k * V k j

/-- C9: the SVD image-compression routine accepts cutoff = 0 (the slider's
minimum) rather than rejecting it: the truncated product is total and the
reconstructed image is the all-zero matrix of the original 2-D shape. -/
theorem truncation_cutoff_zero (U : Matrix (Fin m) (Fin r) ℝ) (S : Fin r → ℝ)
    (V : Matrix (Fin r) (Fin n) ℝ) :
    truncatedReconstruction U S V 0 = 0 := by
  ext i j
  simp [truncatedReconstruction]

/-- Embedding of the slider lower bound in `component_sliders` (07-5
Generative PCA): `min=min(components[:,i])`, the column-wise minimum of the
latent component matrix over its (nonempty) rows. -/
def colMin (c : Matrix (Fin (m + 1)) (Fin K) ℝ) (i : Fin K) : ℝ :=
  Finset.univ.inf' Finset.univ_nonempty fun b => c b i

/-- Embedding of the slider upper bound in `component_sliders` (07-5
Generative PCA): `max=max(components[:,i])`. -/
def colMax (c : Matrix (Fin (m + 1)) (Fin K) ℝ) (i : Fin K) : ℝ :=
  Finset.univ.sup' Finset.univ_nonempty fun b => c b i

/-- C10: every row of the latent component matrix lies within the recorded
per-coordinate empirical bounds: min(components[:,i]) ≤ components[b][i] ≤
max(components[:,i]); in particular the initial slider configuration taken
from row base_sample = 8 is always within its slider's [min, max]. -/
theorem initial_latent_within_bounds (c : Matrix (Fin (m + 1)) (Fin K) ℝ)
    (b : Fin (m + 1)) (i : Fin K) :
    colMin c i ≤ c b i ∧ c b i ≤ colMax c i :=
  ⟨Finset.inf'_le (fun b => c b i) (Finset.mem_univ b),
    Finset.le_sup' (fun b => c b i) (Finset.mem_univ b)⟩

theorem gram_mul_V {A : Matrix (Fin N) (Fin F) α} {d : SVDData N F r α}
    (hd : IsSVD A d) :
    A.transpose * A * d.V = d.V * (Matrix.diagonal d.S * Matrix.diagonal d.S) := by
  obtain ⟨hU, hV, -, -, hA⟩ := hd
  rw [hA]
  calc (d.U * Matrix.diagonal d.S * d.V.transpose).transpose *
        (d.U * Matrix.diagonal d.S * d.V.transpose) * d.V
      = d.V * (Matrix.diagonal d.S * ((d.U.transpose * d.U) *
          (Matrix.diagonal d.S * (d.V.transpose * d.V)))) := by
        rw [Matrix.transpose_mul, Matrix.transpose_mul, Matrix.diagonal_transpose,
          Matrix.transpose_transpose]
        simp only [Matrix.mul_assoc]
    _ = d.V * (Matrix.diagonal d.S * Matrix.diagonal d.S) := by
        rw [hU, hV, Matrix.one_mul, Matrix.mul_one]

/-- The spec's concrete scenario: 3 samples of 2 perfectly correlated
features. -/
def Xcorr : Matrix (Fin 3) (Fin 2) ℝ :=
  Matrix.of fun i j => ![![(0 : ℝ), 0], ![1, 1], ![2, 2]] i j

/-- C7: on X = [[0,0],[1,1],[2,2]] with K = 1, `fit` yields μ = [1,1] and a
single principal direction equal to [√2/2, √2/2] up to sign; with the
matching sign, `transform` of [2,2] is [√2] (resp. [−√2]) and
`inverse_transform` of that latent value recovers [2,2] exactly. -/
theorem concrete_correlated_scenario (d : SVDData 3 2 2 ℝ)
    (hd : IsSVD (centered Xcorr) d) :
    (fit Xcorr 1 one_le_two d).mean = ![1, 1] ∧
    ((((fit Xcorr 1 one_le_two d).R =
        Matrix.of fun j _ => ![Real.sqrt 2 / 2, Real.sqrt 2 / 2] j) ∧
      transform (fit Xcorr 1 one_le_two d) ![2, 2] = ![Real.sqrt 2] ∧
      inverse_transform (fit Xcorr 1 one_le_two d) ![Real.sqrt 2] = ![2, 2]) ∨
     (((fit Xcorr 1 one_le_two d).R =
        Matrix.of fun j _ => ![-(Real.sqrt 2) / 2, -(Real.sqrt 2) / 2] j) ∧
      transform (fit Xcorr 1 one_le_two d) ![2, 2] = ![-(Real.sqrt 2)] ∧
      inverse_transform (fit Xcorr 1 one_le_two d) ![-(Real.sqrt 2)] = ![2, 2])) := by
  have hAVG := gram_mul_V hd
  obtain ⟨hU, hV, hS0, hSd, hA⟩ := hd
  have hmean : (fit Xcorr 1 one_le_two d).mean = ![1, 1] := by
    funext j
    fin_cases j <;>
      simp [fit, meanVector, Xcorr, Fin.sum_univ_succ] <;> norm_num
  have hG : (centered Xcorr).transpose * centered Xcorr =
      Matrix.of fun i j => ![![(2 : ℝ), 2], ![2, 2]] i j := by
    ext i j
    fin_cases i <;> fin_cases j <;>
      simp [centered, meanVector, Xcorr, Matrix.mul_apply, Fin.sum_univ_succ] <;>
      norm_num
  rw [hG, Matrix.diagonal_mul_diagonal] at hAVG
  have e0 : 2 * d.V 0 0 + 2 * d.V 1 0 = d.V 0 0 * (d.S 0 * d.S 0) := by
    have h := congrFun (congrFun hAVG 0) 0
    simpa [Matrix.mul_apply, Matrix.mul_diagonal, Fin.sum_univ_succ] using h
  have e1 : 2 * d.V 0 0 + 2 * d.V 1 0 = d.V 1 0 * (d.S 0 * d.S 0) := by
    have h := congrFun (congrFun hAVG 1) 0
    simpa [Matrix.mul_apply, Matrix.mul_diagonal, Fin.sum_univ_succ] using h
  have hnorm : d.V 0 0 * d.V 0 0 + d.V 1 0 * d.V 1 0 = 1 := by
    have h := congrFun (congrFun hV 0) 0
    simpa [Matrix.mul_apply, Matrix.transpose_apply, Fin.sum_univ_succ,
      Matrix.one_apply] using h
  have hVVt : d.V * d.V.transpose = 1 := Matrix.mul_eq_one_comm.mp hV
  have hGram : (Matrix.of fun i j => ![![(2 : ℝ), 2], ![2, 2]] i j) =
      d.V * (Matrix.diagonal (fun i => d.S i * d.S i) * d.V.transpose) := by
    calc (Matrix.of fun i j => ![![(2 : ℝ), 2], ![2, 2]] i j)
        = (Matrix.of fun i j => ![![(2 : ℝ), 2], ![2, 2]] i j) *
            (d.V * d.V.transpose) := by rw [hVVt, Matrix.mul_one]
      _ = d.V * (Matrix.diagonal (fun i => d.S i * d.S i) * d.V.transpose) := by
            rw [← Matrix.mul_assoc, hAVG, Matrix.mul_assoc]
  have htr : d.S 0 * d.S 0 + d.S 1 * d.S 1 = 4 := by
    have h := congrArg Matrix.trace hGram
    rw [Matrix.trace_mul_comm, Matrix.mul_assoc, hV, Matrix.mul_one,
      Matrix.trace_diagonal] at h
    have hlhs : Matrix.trace (Matrix.of fun i j => ![![(2 : ℝ), 2], ![2, 2]] i j) = 4 := by
      simp [Matrix.trace, Matrix.diag, Fin.sum_univ_succ]
      norm_num
    rw [hlhs] at h
    simpa [Fin.sum_univ_succ] using h.symm
  have hs1 : d.S 1 * d.S 1 ≤ d.S 0 * d.S 0 :=
    mul_self_le_mul_self (hS0 1) (hSd 0 1 (by decide))
  have hs0_ge : 2 ≤ d.S 0 * d.S 0 := by linarith
  have hs_ne : d.S 0 * d.S 0 ≠ 0 := by linarith
  have hab : d.V 0 0 = d.V 1 0 := by
    have h : d.V 0 0 * (d.S 0 * d.S 0) = d.V 1 0 * (d.S 0 * d.S 0) := by linarith
    exact mul_right_cancel₀ hs_ne h
  have hsq : d.V 0 0 * d.V 0 0 = 1 / 2 := by
    rw [← hab] at hnorm
    linarith
  have hhalf : Real.sqrt 2 / 2 * (Real.sqrt 2 / 2) = 1 / 2 := by
    rw [div_mul_div_comm, Real.mul_self_sqrt (by norm_num : (0 : ℝ) ≤ 2)]
    norm_num
  have hacases : d.V 0 0 = Real.sqrt 2 / 2 ∨ d.V 0 0 = -(Real.sqrt 2 / 2) :=
    mul_self_eq_mul_self_iff.mp (hsq.trans hhalf.symm)
  have hself : Real.sqrt 2 * Real.sqrt 2 = 2 :=
    Real.mul_self_sqrt (by norm_num : (0 : ℝ) ≤ 2)
  have ht2 : transform (fit Xcorr 1 one_le_two d) ![2, 2] 0 =
      d.V 0 0 + d.V 1 0 := by
    simp [transform, fit, meanVector, Xcorr, Fin.sum_univ_succ]
    ring
  have hinv0 : ∀ z : ℝ, ∀ j : Fin 2,
      inverse_transform (fit Xcorr 1 one_le_two d) ![z] j = z * d.V j 0 + 1 := by
    intro z j
    have hcast : Fin.castLE one_le_two (0 : Fin 1) = (0 : Fin 2) := rfl
    fin_cases j <;>
      simp [inverse_transform, fit, meanVector, Xcorr, Fin.sum_univ_succ, hcast] <;>
      norm_num
  refine ⟨hmean, ?_⟩
  rcases hacases with ha | ha
  · left
    have hb : d.V 1 0 = Real.sqrt 2 / 2 := hab ▸ ha
    refine ⟨?_, ?_, ?_⟩
    · ext j k
      fin_cases j <;> fin_cases k
      · exact ha
      · exact hb
    · funext k
      fin_cases k
      show transform (fit Xcorr 1 one_le_two d) ![2, 2] 0 = Real.sqrt 2
      rw [ht2, ha, hb]
      ring
    · funext j
      fin_cases j
      · show inverse_transform (fit Xcorr 1 one_le_two d) ![Real.sqrt 2] 0 = 2
        rw [hinv0 (Real.sqrt 2) 0, ha]
        field_simp
        linarith [hself]
      · show inverse_transform (fit Xcorr 1 one_le_two d) ![Real.sqrt 2] 1 = 2
        rw [hinv0 (Real.sqrt 2) 1, hb]
        field_simp
        linarith [hself]
  · right
    have hb : d.V 1 0 = -(Real.sqrt 2 / 2) := hab ▸ ha
    refine ⟨?_, ?_, ?_⟩
    · ext j k
      fin_cases j <;> fin_cases k
      · show d.V 0 0 = -(Real.sqrt 2) / 2
        rw [ha]; ring
      · show d.V 1 0 = -(Real.sqrt 2) / 2
        rw [hb]; ring
    · funext k
      fin_cases k
      show transform (fit Xcorr 1 one_le_two d) ![2, 2] 0 = -(Real.sqrt 2)
      rw [ht2, ha, hb]
      ring
    · funext j
      fin_cases j
      · show inverse_transform (fit Xcorr 1 one_le_two d) ![-(Real.sqrt 2)] 0 = 2
        rw [hinv0 (-(Real.sqrt 2)) 0, ha]
        field_simp
        linarith [hself]
      · show inverse_transform (fit Xcorr 1 one_le_two d) ![-(Real.sqrt 2)] 1 = 2
        rw [hinv0 (-(Real.sqrt 2)) 1, hb]
        field_simp
        linarith [hself]

/-- A concrete valid thin SVD datum for `centered Xcorr` (singular values 2
and 0, right-singular vectors (1,1)/√2 and (1,−1)/√2). -/
noncomputable def dcorr : SVDData 3 2 2 ℝ :=
  { U := Matrix.of fun i j =>
      ![![-(Real.sqrt 2) / 2, Real.sqrt 2 / 2], ![0, 0],
        ![Real.sqrt 2 / 2, Real.sqrt 2 / 2]] i j
    S := ![2, 0]
    V := Matrix.of fun i j =>
      ![![Real.sqrt 2 / 2, Real.sqrt 2 / 2],
        ![Real.sqrt 2 / 2, -(Real.sqrt 2) / 2]] i j }

theorem dcorr_isSVD : IsSVD (centered Xcorr) dcorr := by
  have hself : Real.sqrt 2 * Real.sqrt 2 = 2 :=
    Real.mul_self_sqrt (by norm_num : (0 : ℝ) ≤ 2)
  refine ⟨?_, ?_, ?_, ?_, ?_⟩
  · ext i j
    fin_cases i <;> fin_cases j <;>
      simp [dcorr, Matrix.mul_apply, Fin.sum_univ_succ, Matrix.one_apply] <;>
      first
        | ring1
        | linear_combination hself / 2
        | linear_combination -hself / 2
        | linear_combination hself
        | linear_combination -hself
  · ext i j
    fin_cases i <;> fin_cases j <;>
      simp [dcorr, Matrix.mul_apply, Fin.sum_univ_succ, Matrix.one_apply,
        Matrix.transpose_apply] <;>
      first
        | ring1
        | linear_combination hself / 2
        | linear_combination -hself / 2
        | linear_combination hself
        | linear_combination -hself
  · intro i
    fin_cases i <;> norm_num [dcorr]
  · intro i j hij
    fin_cases i <;> fin_cases j
    · norm_num [dcorr]
    · norm_num [dcorr]
    · exact absurd hij (by decide)
    · norm_num [dcorr]
  · ext i j
    fin_cases i <;> fin_cases j <;>
      simp [dcorr, Xcorr, centered, meanVector, Matrix.mul_apply,
        Matrix.diagonal, Fin.sum_univ_succ] <;>
      first
        | ring1
        | linear_combination hself / 2
        | linear_combination -hself / 2
        | linear_combination hself
        | linear_combination -hself

/-- Witness for C7: the concrete scenario theorem applied to the explicit
SVD datum `dcorr` of the centered X = [[0,0],[1,1],[2,2]]. -/
theorem concrete_correlated_scenario_witness :
    (fit Xcorr 1 one_le_two dcorr).mean = ![1, 1] ∧
    ((((fit Xcorr 1 one_le_two dcorr).R =
        Matrix.of fun j _ => ![Real.sqrt 2 / 2, Real.sqrt 2 / 2] j) ∧
      transform (fit Xcorr 1 one_le_two dcorr) ![2, 2] = ![Real.sqrt 2] ∧
      inverse_transform (fit Xcorr 1 one_le_two dcorr) ![Real.sqrt 2] = ![2, 2]) ∨
     (((fit Xcorr 1 one_le_two dcorr).R =
        Matrix.of fun j _ => ![-(Real.sqrt 2) / 2, -(Real.sqrt 2) / 2] j) ∧
      transform (fit Xcorr 1 one_le_two dcorr) ![2, 2] = ![-(Real.sqrt 2)] ∧
      inverse_transform (fit Xcorr 1 one_le_two dcorr) ![-(Real.sqrt 2)] =
        ![2, 2])) :=
  concrete_correlated_scenario dcorr dcorr_isSVD

end Engine
